import Mathlib

/-!
Shallow embedding of the lineup construction engine of the NBA DFS
optimizer (src/streamlit_app.py) and verification of its specification.

Numeric cells are modelled with exact rationals. Python exceptions are
modelled with `Except Unit`; a cell whose Python float conversion would
raise ValueError carries `none` in the corresponding field below.
-/

/-- A raw CSV cell, as seen by parse_csv. `text` models str(cell);
`asFloat` models the result of the Python call float(cell), and
`asCurrency` models float of the text with dollar signs and commas
stripped (the conversion used for salary columns, line 36 of the
source); `none` means the conversion raises ValueError. -/
structure Cell where
  text : String
  asFloat : Option ℚ
  asCurrency : Option ℚ
deriving DecidableEq

/-- A raw table: named columns and rows of cells (a pandas DataFrame as
consumed by parse_csv). -/
structure RawTable where
  columns : List String
  rows : List (List Cell)
deriving DecidableEq

/-- The intermediate per-row dictionary built by parse_csv (the Python
dict named player, lines 25 to 42); absent keys are `none`. -/
structure RawPlayer where
  name : Option String := none
  position : Option String := none
  team : Option String := none
  salary : Option ℚ := none
  proj_pts : Option ℚ := none
  ownership : Option ℚ := none
deriving DecidableEq

/-- A normalized player record as produced by parse_csv (lines 44 to 47).
Fields that parse_csv may leave out of the dict stay optional. -/
structure Player where
  name : String
  position : Option String
  team : Option String
  salary : ℚ
  proj_pts : ℚ
  value : ℚ
  ownership : Option ℚ
deriving DecidableEq

/-- Lower-cased character list of a string (col.lower() in the source). -/
def lowerOf (s : String) : List Char :=
  s.toList.map Char.toLower

/-- Decidable infix test on character lists. -/
def hasInfix (needle : List Char) : List Char → Bool
  | [] => needle.isEmpty
  | c :: rest => needle.isPrefixOf (c :: rest) || hasInfix needle rest

/-- Substring test used by the column mapping (the Python `in` operator
on strings). -/
def containsSub (hay : List Char) (needle : String) : Bool :=
  hasInfix needle.toList hay

/-- One step of the flexible column mapping of parse_csv (lines 28 to 42
of the source): an elif chain keyed on the lower-cased column name. A
`none` conversion result models a raised ValueError. -/
def applyCol (p : RawPlayer) (col : String) (cell : Cell) : Except Unit RawPlayer :=
  let cl := lowerOf col
  if containsSub cl "name" || cl == "nickname".toList then
    .ok { p with name := some cell.text }
  else if containsSub cl "pos" && !containsSub cl "opp" then
    .ok { p with position := some cell.text }
  else if containsSub cl "sal" || cl == "salary".toList then
    match cell.asCurrency with
    | some q => .ok { p with salary := some q }
    | none => .error ()
  else if containsSub cl "proj" || containsSub cl "fppg" then
    match cell.asFloat with
    | some q => .ok { p with proj_pts := some q }
    | none => .error ()
  else if containsSub cl "team" && !containsSub cl "opp" then
    .ok { p with team := some cell.text }
  else if containsSub cl "own" then
    match cell.asFloat with
    | some q => .ok { p with ownership := some q }
    | none => .error ()
  else
    .ok p

/-- Fold of applyCol over the columns of one row, left to right; the
first raised ValueError aborts the row (and, in Python, the whole call). -/
def parseCols : RawPlayer → List (String × Cell) → Except Unit RawPlayer
  | p, [] => .ok p
  | p, (c, cell) :: rest =>
    match applyCol p c cell with
    | .error e => .error e
    | .ok p2 => parseCols p2 rest

/-- Build the per-row dict for one row of the table. -/
def parseRow (cols : List String) (cells : List Cell) : Except Unit RawPlayer :=
  parseCols {} (cols.zip cells)

/-- Guard and value computation of parse_csv (lines 44 to 47 of the
source): a row is emitted only when a name was matched and both the
parsed salary and the parsed projection are positive; the value field is
projected points per 1000 salary units. -/
def rowPlayer (rp : RawPlayer) : Option Player :=
  match rp.name with
  | none => none
  | some n =>
    if 0 < rp.salary.getD 0 ∧ 0 < rp.proj_pts.getD 0 then
      some { name := n, position := rp.position, team := rp.team,
             salary := rp.salary.getD 0, proj_pts := rp.proj_pts.getD 0,
             value := rp.proj_pts.getD 0 / (rp.salary.getD 0 / 1000),
             ownership := rp.ownership }
    else none

/-- Row loop of parse_csv: rows are processed in order, kept rows are
appended in order, and a raised ValueError aborts the whole call. -/
def parseRows (cols : List String) : List (List Cell) → Except Unit (List Player)
  | [] => .ok []
  | r :: rs =>
    match parseRow cols r with
    | .error e => .error e
    | .ok rp =>
      match parseRows cols rs with
      | .error e => .error e
      | .ok ps =>
        .ok (match rowPlayer rp with
             | some p => p :: ps
             | none => ps)

/-- parse_csv (lines 20 to 49 of the source): the schema normalizer. -/
def parse_csv (t : RawTable) : Except Unit (List Player) :=
  parseRows t.columns t.rows

deriving instance DecidableEq for Except

/-- Python int() applied to a rational: truncation toward zero. -/
def pyInt (q : ℚ) : ℤ :=
  if 0 ≤ q then ⌊q⌋ else ⌈q⌉

/-- Insert a player into an already sorted (value ascending) list, after
all entries whose value does not exceed it. This is the per-element step
of a stable ascending sort, which is what the numpy argsort used by
pandas performs on the small frames of this app (insertion sort regime),
and exactly what kind mergesort or stable would do. -/
def insertAscV (p : Player) : List Player → List Player
  | [] => [p]
  | q :: qs => if p.value < q.value then p :: q :: qs else q :: insertAscV p qs

/-- Stable ascending sort by the value field. -/
def sortAscV (xs : List Player) : List Player :=
  xs.foldl (fun acc p => insertAscV p acc) []

/-- df.sort_values of the value column with ascending false: the pandas
nargsort helper reverses the values and the index before taking an
ascending (stable, for stable kinds and for the small-frame insertion
sort regime of numpy quicksort) argsort, and reverses the resulting
indexer afterwards. The composition is a stable descending sort: the
output is non-increasing by value and ties between equal values keep
their original input order, as pinned by the pandas regression test for
stable descending sorts. -/
def sort_values_desc (xs : List Player) : List Player :=
  (sortAscV xs.reverse).reverse

/-- The threshold predicate of filter_players (lines 53 to 57 of the
source): all three bounds are inclusive. -/
def passesThresholds (min_projection min_value max_salary : ℚ) (p : Player) : Bool :=
  decide (min_projection ≤ p.proj_pts ∧ min_value ≤ p.value ∧ p.salary ≤ max_salary)

/-- filter_players (lines 51 to 59 of the source): keep the rows passing
the three inclusive thresholds and sort the copy descending by value. -/
def filter_players (df : List Player) (min_projection min_value max_salary : ℚ) :
    List Player :=
  sort_values_desc (df.filter (passesThresholds min_projection min_value max_salary))

/-- Modelled from the spec (section 4.3): the same filter but written as
a direct stable descending sort whose ties keep the original input
order; proven below to coincide with the code ordering. -/
def insertDescV (p : Player) : List Player → List Player
  | [] => [p]
  | q :: qs => if q.value < p.value then p :: q :: qs else q :: insertDescV p qs

/-- Modelled from the spec (section 4.3): stable descending sort by value,
ties in original input order. -/
def specSortDesc (xs : List Player) : List Player :=
  xs.foldl (fun acc p => insertDescV p acc) []

/-- Modelled from the spec (section 4.3): filterPool with the stable
descending order the spec asks for. -/
def filterPoolSpec (df : List Player) (min_projection min_value max_salary : ℚ) :
    List Player :=
  specSortDesc (df.filter (passesThresholds min_projection min_value max_salary))

/-- The record shape built by generate_cores (lines 73 to 80 of the
source) and by the lineup filler (lines 111 to 118): salary is converted
with int(), team defaults to the empty string via dict.get, and the
ownership key is not copied. -/
structure RosterPlayer where
  name : String
  position : Option String
  salary : ℤ
  proj_pts : ℚ
  value : ℚ
  team : String
deriving DecidableEq

/-- Conversion applied when a Player row is copied into a core or a
lineup (lines 73 to 80 and 111 to 118 of the source). -/
def toRoster (p : Player) : RosterPlayer :=
  { name := p.name, position := p.position, salary := pyInt p.salary,
    proj_pts := p.proj_pts, value := p.value, team := p.team.getD "" }

/-- Inner scan step of generate_cores (lines 71 to 81 of the source):
append the player when its name is unused and the core is not full,
marking the name as used. The state is the core under construction and
the shared used-player set. -/
def coreScanStep (players_per_core : Nat) (st : List RosterPlayer × List String)
    (p : Player) : List RosterPlayer × List String :=
  if p.name ∉ st.2 ∧ st.1.length < players_per_core then
    (st.1 ++ [toRoster p], p.name :: st.2)
  else st

/-- One iteration of the outer loop of generate_cores (lines 68 to 84 of
the source): scan the sorted pool once from an empty core and the shared
used set, and keep the core only when it is exactly full. -/
def coreIter (df_sorted : List Player) (players_per_core : Nat)
    (st : List (List RosterPlayer) × List String) :
    List (List RosterPlayer) × List String :=
  let inner := df_sorted.foldl (coreScanStep players_per_core) ([], st.2)
  (if inner.1.length = players_per_core then st.1 ++ [inner.1] else st.1, inner.2)

/-- generate_cores (lines 61 to 86 of the source): num_cores scans over
the value sorted pool, sharing one used-player set; a core is kept only
when it reaches exactly players_per_core members. -/
def generate_cores (df : List Player) (num_cores players_per_core : Nat) :
    List (List RosterPlayer) :=
  ((List.range num_cores).foldl
    (fun st _ => coreIter (sort_values_desc df) players_per_core st) ([], [])).1

/-- Core stacks are disjoint when no name of the first appears in the
second. -/
def coreDisj (c1 c2 : List RosterPlayer) : Prop :=
  ∀ n ∈ c1.map RosterPlayer.name, n ∉ c2.map RosterPlayer.name

/-- Invariant of the outer loop of generate_cores: collected cores are
exactly full, all their names are in the shared used set, and they are
pairwise disjoint. -/
def CoreInv (players_per_core : Nat)
    (st : List (List RosterPlayer) × List String) : Prop :=
  (∀ core ∈ st.1, core.length = players_per_core) ∧
  (∀ core ∈ st.1, ∀ x ∈ core, x.name ∈ st.2) ∧
  st.1.Pairwise coreDisj

/-- One lineup record of generate_lineups_from_cores (lines 126 to 133 of
the source). There is no completeness flag: only the listed fields exist. -/
structure LineupRec where
  core_set : Nat
  lineup : List RosterPlayer
  total_salary : ℤ
  remaining_salary : ℤ
  projected_points : ℚ
  num_players : Nat
deriving DecidableEq

/-- Candidate pool for one core (line 97 of the source): the input pool
minus the core names, sorted descending by value. -/
def availableOf (df : List Player) (core : List RosterPlayer) : List Player :=
  sort_values_desc (df.filter (fun p => decide (p.name ∉ core.map RosterPlayer.name)))

/-- One step of the fill loop (lines 105 to 120 of the source). The
state is the lineup, the running salary, and the used-name set; once the
lineup has 9 players every further candidate is ignored, which models
the break statement. -/
def lineupStep (salary_cap : ℚ) (st : List RosterPlayer × ℚ × List String)
    (p : Player) : List RosterPlayer × ℚ × List String :=
  if 9 ≤ st.1.length then st
  else if p.name ∉ st.2.2 ∧ st.2.1 + p.salary ≤ salary_cap then
    (st.1 ++ [toRoster p], st.2.1 + p.salary, p.name :: st.2.2)
  else st

/-- Fill one lineup from a core (lines 99 to 120 of the source): start
from the core, its salary and its names, then walk the candidates once.
Returns the lineup and the final running salary. -/
def buildLineup (available : List Player) (core : List RosterPlayer)
    (salary_cap : ℚ) : List RosterPlayer × ℚ :=
  let st := available.foldl (lineupStep salary_cap)
    (core, (((core.map RosterPlayer.salary).sum : ℤ) : ℚ), core.map RosterPlayer.name)
  (st.1, st.2.1)

/-- The record appended for a finished lineup (lines 126 to 133 of the
source). -/
def mkRecord (core_idx : Nat) (salary_cap : ℚ) (lineup : List RosterPlayer)
    (current_salary : ℚ) : LineupRec :=
  { core_set := core_idx, lineup := lineup, total_salary := pyInt current_salary,
    remaining_salary := pyInt (salary_cap - current_salary),
    projected_points := (lineup.map RosterPlayer.proj_pts).sum,
    num_players := lineup.length }

/-- Repetition loop for one core (lines 99 to 133 of the source): every
repetition rebuilds the same lineup from the same candidate ordering,
and a record is appended only when the lineup has exactly 9 players. -/
def perCore (df : List Player) (lineups_per_core : Nat) (salary_cap : ℚ)
    (core_idx : Nat) (core : List RosterPlayer) (acc : List LineupRec) :
    List LineupRec :=
  let available := availableOf df core
  (List.range lineups_per_core).foldl
    (fun all _ =>
      let st := buildLineup available core salary_cap
      if st.1.length = 9 then all ++ [mkRecord core_idx salary_cap st.1 st.2] else all)
    acc

/-- generate_lineups_from_cores (lines 88 to 135 of the source): cores
are processed in order with 1-based indices. -/
def generate_lineups_from_cores (df : List Player) (cores : List (List RosterPlayer))
    (lineups_per_core : Nat) (salary_cap : ℚ) : List LineupRec :=
  (cores.enumFrom 1).foldl
    (fun all ic => perCore df lineups_per_core salary_cap ic.1 ic.2 all) []

/-- Value comparison used to state ascending sortedness. -/
def vle (a b : Player) : Prop :=
  a.value ≤ b.value

/-- Value comparison used to state descending sortedness. -/
def vge (a b : Player) : Prop :=
  b.value ≤ a.value

/-- Modelled from the spec (section 4.5 step 3): walk the candidate pool
once, appending a candidate exactly when its salary keeps the running
total within the cap, and stopping once the roster reaches the target
size. Stated over the candidate list and the running lineup and salary. -/
def specFill (salary_cap : ℚ) (target : Nat) :
    List Player → List RosterPlayer × ℚ → List RosterPlayer × ℚ
  | [], st => st
  | p :: ps, st =>
    if target ≤ st.1.length then st
    else if st.2 + p.salary ≤ salary_cap then
      specFill salary_cap target ps (st.1 ++ [toRoster p], st.2 + p.salary)
    else specFill salary_cap target ps st

/-- The block of records that one core contributes to the output of
generate_lineups_from_cores: all repetitions build the same lineup, so
the block is either lineups_per_core copies of one record or empty. -/
def chunk (df : List Player) (lineups_per_core : Nat) (salary_cap : ℚ)
    (core_idx : Nat) (core : List RosterPlayer) : List LineupRec :=
  if (buildLineup (availableOf df core) core salary_cap).1.length = 9 then
    List.replicate lineups_per_core
      (mkRecord core_idx salary_cap
        (buildLineup (availableOf df core) core salary_cap).1
        (buildLineup (availableOf df core) core salary_cap).2)
  else []

/-- Concatenation of the per-core blocks, with indices counting up from n. -/
def chunksFrom (df : List Player) (lineups_per_core : Nat) (salary_cap : ℚ) :
    Nat → List (List RosterPlayer) → List LineupRec
  | _, [] => []
  | n, core :: rest =>
    chunk df lineups_per_core salary_cap n core ++
      chunksFrom df lineups_per_core salary_cap (n + 1) rest

/-- Two successive calls of filter_players with identical arguments on
one pool, together with the source pool after both calls. The source
code copies the frame before sorting (df[...].copy(), line 57) and
sort_values is not in place, so the embedding of the post-call source is
the source itself. -/
def filterTwice (df : List Player) (min_projection min_value max_salary : ℚ) :
    (List Player × List Player) × List Player :=
  ((filter_players df min_projection min_value max_salary,
    filter_players df min_projection min_value max_salary), df)

/-- Concrete player used in the tie-order trace: value 5. -/
def tieA : Player :=
  ⟨"A", none, none, 5000, 25, 5, none⟩

/-- Concrete player used in the tie-order trace: value 5. -/
def tieB : Player :=
  ⟨"B", none, none, 6000, 30, 5, none⟩

/-- A single-member core used to exhibit a discarded incomplete lineup. -/
def soloCore : RosterPlayer :=
  ⟨"S", none, 5000, 10, 2, ""⟩

/-- A nine-member core with total salary 70000, above the 60000 cap. -/
def nineCore : List RosterPlayer :=
  [⟨"n1", none, 6000, 10, 2, ""⟩, ⟨"n2", none, 8000, 10, 2, ""⟩,
   ⟨"n3", none, 8000, 10, 2, ""⟩, ⟨"n4", none, 8000, 10, 2, ""⟩,
   ⟨"n5", none, 8000, 10, 2, ""⟩, ⟨"n6", none, 8000, 10, 2, ""⟩,
   ⟨"n7", none, 8000, 10, 2, ""⟩, ⟨"n8", none, 8000, 10, 2, ""⟩,
   ⟨"n9", none, 8000, 10, 2, ""⟩]

/-- A table with one salary column whose single cell is not numeric. -/
def badTable : RawTable :=
  ⟨["Salary"], [[⟨"abc", none, none⟩]]⟩

/-- A table with zero columns and one row. -/
def zeroTable : RawTable :=
  ⟨[], [[⟨"x", none, none⟩]]⟩

/-- A well-formed one-row table. -/
def goodTable : RawTable :=
  ⟨["Name", "Salary", "Proj"],
   [[⟨"A", none, none⟩, ⟨"5000", none, some 5000⟩, ⟨"25", some 25, none⟩]]⟩

/-- The player that goodTable normalizes to. -/
def goodPlayer : Player :=
  ⟨"A", none, none, 5000, 25, 5, none⟩

/-- The per-row dict that the single row of goodTable parses to. -/
def goodRaw : RawPlayer :=
  ⟨some "A", none, none, some 5000, some 25, none⟩

/-- A one-player pool used in witnesses. -/
def witPool : List Player :=
  [⟨"X", none, none, 4000, 20, 5, none⟩]

/-- A one-player core used in witnesses. -/
def witCore : List RosterPlayer :=
  [⟨"K", none, 5000, 10, 2, ""⟩]

/-- An eight-player pool of distinct cheap players, enough to complete a
nine-player lineup around a one-player core. -/
def bigPool : List Player :=
  [⟨"b1", none, none, 1000, 10, 10, none⟩, ⟨"b2", none, none, 1000, 10, 10, none⟩,
   ⟨"b3", none, none, 1000, 10, 10, none⟩, ⟨"b4", none, none, 1000, 10, 10, none⟩,
   ⟨"b5", none, none, 1000, 10, 10, none⟩, ⟨"b6", none, none, 1000, 10, 10, none⟩,
   ⟨"b7", none, none, 1000, 10, 10, none⟩, ⟨"b8", none, none, 1000, 10, 10, none⟩]

theorem insertAscV_perm (p : Player) (l : List Player) :
    (insertAscV p l).Perm (p :: l) := by
  induction l with
  | nil => simp [insertAscV]
  | cons q qs ih =>
    by_cases h : p.value < q.value
    · simp [insertAscV, h]
    · simp only [insertAscV, if_neg h]
      exact (ih.cons q).trans (List.Perm.swap p q qs)

theorem insertAscV_pairwise (p : Player) (l : List Player)
    (h : l.Pairwise vle) : (insertAscV p l).Pairwise vle := by
  induction l with
  | nil => simp [insertAscV]
  | cons q qs ih =>
    rcases List.pairwise_cons.mp h with ⟨h1, h2⟩
    by_cases hlt : p.value < q.value
    · simp only [insertAscV, if_pos hlt]
      refine List.pairwise_cons.mpr ⟨?_, h⟩
      intro x hx
      rcases List.mem_cons.mp hx with rfl | hx
      · exact le_of_lt hlt
      · exact le_trans (le_of_lt hlt) (h1 x hx)
    · simp only [insertAscV, if_neg hlt]
      refine List.pairwise_cons.mpr ⟨?_, ih h2⟩
      intro x hx
      rcases (insertAscV_perm p qs).mem_iff.mp hx with hx'
      rcases List.mem_cons.mp hx' with rfl | hx''
      · exact le_of_not_lt hlt
      · exact h1 x hx''

theorem insertAscV_filter (v : ℚ) (p : Player) (l : List Player)
    (h : l.Pairwise vle) :
    (insertAscV p l).filter (fun q => decide (q.value = v)) =
      l.filter (fun q => decide (q.value = v)) ++
        (if p.value = v then [p] else []) := by
  induction l with
  | nil =>
    by_cases hv : p.value = v <;> simp [insertAscV, List.filter_cons, hv]
  | cons q qs ih =>
    rcases List.pairwise_cons.mp h with ⟨h1, h2⟩
    by_cases hlt : p.value < q.value
    · simp only [insertAscV, if_pos hlt]
      by_cases hv : p.value = v
      · have hqs : (q :: qs).filter (fun q => decide (q.value = v)) = [] := by
          refine List.filter_eq_nil_iff.mpr ?_
          intro x hx
          rcases List.mem_cons.mp hx with rfl | hx'
          · simp only [decide_eq_true_eq]
            exact ne_of_gt (hv ▸ hlt)
          · simp only [decide_eq_true_eq]
            exact ne_of_gt (lt_of_lt_of_le (hv ▸ hlt) (h1 x hx'))
        rw [List.filter_cons]
        simp [hv, hqs]
      · rw [List.filter_cons]
        simp [hv]
    · simp only [insertAscV, if_neg hlt]
      rw [List.filter_cons, List.filter_cons]
      by_cases hq : q.value = v
      · simp [hq, ih h2]
      · simp [hq, ih h2]

theorem sortAsc_fold_spec (xs : List Player) :
    ∀ acc : List Player, acc.Pairwise vle →
      (xs.foldl (fun a p => insertAscV p a) acc).Perm (acc ++ xs) ∧
      (xs.foldl (fun a p => insertAscV p a) acc).Pairwise vle ∧
      ∀ v, (xs.foldl (fun a p => insertAscV p a) acc).filter
              (fun q => decide (q.value = v)) =
            acc.filter (fun q => decide (q.value = v)) ++
              xs.filter (fun q => decide (q.value = v)) := by
  induction xs with
  | nil => intro acc hacc; simp [hacc]
  | cons x xs ih =>
    intro acc hacc
    have hacc' := insertAscV_pairwise x acc hacc
    rcases ih (insertAscV x acc) hacc' with ⟨hp, hs, hf⟩
    refine ⟨?_, hs, ?_⟩
    · simp only [List.foldl_cons]
      refine hp.trans ?_
      have h1 : (insertAscV x acc ++ xs).Perm ((x :: acc) ++ xs) :=
        (insertAscV_perm x acc).append_right xs
      refine h1.trans ?_
      have h2 : ((x :: acc) ++ xs) = x :: (acc ++ xs) := rfl
      rw [h2]
      exact List.perm_middle.symm
    · intro v
      simp only [List.foldl_cons]
      rw [hf v, insertAscV_filter v x acc hacc, List.filter_cons]
      by_cases hv : x.value = v <;> simp [hv]

theorem sortAscV_perm (xs : List Player) : (sortAscV xs).Perm xs := by
  have h := (sortAsc_fold_spec xs [] (by simp)).1
  simpa [sortAscV] using h

theorem sortAscV_pairwise (xs : List Player) : (sortAscV xs).Pairwise vle :=
  (sortAsc_fold_spec xs [] (by simp)).2.1

theorem sortAscV_filter (xs : List Player) (v : ℚ) :
    (sortAscV xs).filter (fun q => decide (q.value = v)) =
      xs.filter (fun q => decide (q.value = v)) := by
  have h := (sortAsc_fold_spec xs [] (by simp)).2.2 v
  simpa [sortAscV] using h

theorem sort_values_desc_perm (xs : List Player) :
    (sort_values_desc xs).Perm xs := by
  unfold sort_values_desc
  exact ((List.reverse_perm (sortAscV xs.reverse)).trans
    (sortAscV_perm xs.reverse)).trans (List.reverse_perm xs)

theorem sort_values_desc_pairwise (xs : List Player) :
    (sort_values_desc xs).Pairwise vge := by
  unfold sort_values_desc
  exact List.pairwise_reverse.mpr (sortAscV_pairwise xs.reverse)

theorem sort_values_desc_filter (xs : List Player) (v : ℚ) :
    (sort_values_desc xs).filter (fun q => decide (q.value = v)) =
      xs.filter (fun q => decide (q.value = v)) := by
  unfold sort_values_desc
  rw [List.filter_reverse, sortAscV_filter, List.filter_reverse,
    List.reverse_reverse]

theorem insertDescV_perm (p : Player) (l : List Player) :
    (insertDescV p l).Perm (p :: l) := by
  induction l with
  | nil => simp [insertDescV]
  | cons q qs ih =>
    by_cases h : q.value < p.value
    · simp [insertDescV, h]
    · simp only [insertDescV, if_neg h]
      exact (ih.cons q).trans (List.Perm.swap p q qs)

theorem insertDescV_pairwise (p : Player) (l : List Player)
    (h : l.Pairwise vge) : (insertDescV p l).Pairwise vge := by
  induction l with
  | nil => simp [insertDescV]
  | cons q qs ih =>
    rcases List.pairwise_cons.mp h with ⟨h1, h2⟩
    by_cases hlt : q.value < p.value
    · simp only [insertDescV, if_pos hlt]
      refine List.pairwise_cons.mpr ⟨?_, h⟩
      intro x hx
      rcases List.mem_cons.mp hx with rfl | hx
      · exact le_of_lt hlt
      · exact le_trans (h1 x hx) (le_of_lt hlt)
    · simp only [insertDescV, if_neg hlt]
      refine List.pairwise_cons.mpr ⟨?_, ih h2⟩
      intro x hx
      rcases (insertDescV_perm p qs).mem_iff.mp hx with hx'
      rcases List.mem_cons.mp hx' with rfl | hx''
      · exact le_of_not_lt hlt
      · exact h1 x hx''

theorem insertDescV_filter (v : ℚ) (p : Player) (l : List Player)
    (h : l.Pairwise vge) :
    (insertDescV p l).filter (fun q => decide (q.value = v)) =
      l.filter (fun q => decide (q.value = v)) ++
        (if p.value = v then [p] else []) := by
  induction l with
  | nil =>
    by_cases hv : p.value = v <;> simp [insertDescV, List.filter_cons, hv]
  | cons q qs ih =>
    rcases List.pairwise_cons.mp h with ⟨h1, h2⟩
    by_cases hlt : q.value < p.value
    · simp only [insertDescV, if_pos hlt]
      by_cases hv : p.value = v
      · have hqs : (q :: qs).filter (fun q => decide (q.value = v)) = [] := by
          refine List.filter_eq_nil_iff.mpr ?_
          intro x hx
          rcases List.mem_cons.mp hx with rfl | hx'
          · simp only [decide_eq_true_eq]
            exact ne_of_lt (hv ▸ hlt)
          · simp only [decide_eq_true_eq]
            exact ne_of_lt (lt_of_le_of_lt (h1 x hx') (hv ▸ hlt))
        rw [List.filter_cons]
        simp [hv, hqs]
      · rw [List.filter_cons]
        simp [hv]
    · simp only [insertDescV, if_neg hlt]
      rw [List.filter_cons, List.filter_cons]
      by_cases hq : q.value = v
      · simp [hq, ih h2]
      · simp [hq, ih h2]

theorem specSortDesc_fold_spec (xs : List Player) :
    ∀ acc : List Player, acc.Pairwise vge →
      (xs.foldl (fun a p => insertDescV p a) acc).Perm (acc ++ xs) ∧
      (xs.foldl (fun a p => insertDescV p a) acc).Pairwise vge ∧
      ∀ v, (xs.foldl (fun a p => insertDescV p a) acc).filter
              (fun q => decide (q.value = v)) =
            acc.filter (fun q => decide (q.value = v)) ++
              xs.filter (fun q => decide (q.value = v)) := by
  induction xs with
  | nil => intro acc hacc; simp [hacc]
  | cons x xs ih =>
    intro acc hacc
    have hacc' := insertDescV_pairwise x acc hacc
    rcases ih (insertDescV x acc) hacc' with ⟨hp, hs, hf⟩
    refine ⟨?_, hs, ?_⟩
    · simp only [List.foldl_cons]
      refine hp.trans ?_
      have h1 : (insertDescV x acc ++ xs).Perm ((x :: acc) ++ xs) :=
        (insertDescV_perm x acc).append_right xs
      refine h1.trans ?_
      have h2 : ((x :: acc) ++ xs) = x :: (acc ++ xs) := rfl
      rw [h2]
      exact List.perm_middle.symm
    · intro v
      simp only [List.foldl_cons]
      rw [hf v, insertDescV_filter v x acc hacc, List.filter_cons]
      by_cases hv : x.value = v <;> simp [hv]

theorem specSortDesc_pairwise (xs : List Player) :
    (specSortDesc xs).Pairwise vge :=
  (specSortDesc_fold_spec xs [] (by simp)).2.1

theorem specSortDesc_filter (xs : List Player) (v : ℚ) :
    (specSortDesc xs).filter (fun q => decide (q.value = v)) =
      xs.filter (fun q => decide (q.value = v)) := by
  have h := (specSortDesc_fold_spec xs [] (by simp)).2.2 v
  simpa [specSortDesc] using h

theorem sortedDesc_unique :
    ∀ l1 l2 : List Player, l1.Pairwise vge → l2.Pairwise vge →
      (∀ v, l1.filter (fun q => decide (q.value = v)) =
        l2.filter (fun q => decide (q.value = v))) → l1 = l2 := by
  intro l1
  induction l1 with
  | nil =>
    intro l2 _ _ hf
    cases l2 with
    | nil => rfl
    | cons y t2 =>
      exfalso
      have h := hf y.value
      simp [List.filter_cons] at h
  | cons x t1 ih =>
    intro l2 h1 h2 hf
    cases l2 with
    | nil =>
      exfalso
      have h := hf x.value
      simp [List.filter_cons] at h
    | cons y t2 =>
      rcases List.pairwise_cons.mp h1 with ⟨hx1, ht1⟩
      rcases List.pairwise_cons.mp h2 with ⟨hy2, ht2⟩
      have hxy : x = y := by
        by_cases hv : y.value = x.value
        · have h := hf x.value
          rw [List.filter_cons, List.filter_cons] at h
          rw [if_pos (by simp), if_pos (by simp [hv])] at h
          simp only [List.cons.injEq] at h
          exact h.1
        · exfalso
          have hxy1 : x.value ≤ y.value := by
            have h := hf x.value
            rw [List.filter_cons, List.filter_cons] at h
            rw [if_pos (by simp), if_neg (by simp [hv])] at h
            have hxmem : x ∈ t2.filter (fun q => decide (q.value = x.value)) := by
              rw [← h]
              exact List.mem_cons_self _ _
            exact hy2 x (List.mem_filter.mp hxmem).1
          have hxy2 : y.value ≤ x.value := by
            have h := hf y.value
            rw [List.filter_cons, List.filter_cons] at h
            have hcond : ¬(decide (x.value = y.value) = true) := by
              simp only [decide_eq_true_eq]
              exact fun he => hv he.symm
            rw [if_neg hcond, if_pos (by simp)] at h
            have hymem : y ∈ t1.filter (fun q => decide (q.value = y.value)) := by
              rw [h]
              exact List.mem_cons_self _ _
            exact hx1 y (List.mem_filter.mp hymem).1
          exact hv (le_antisymm hxy2 hxy1)
      subst hxy
      have ht : t1 = t2 := by
        refine ih t2 ht1 ht2 ?_
        intro v
        have h := hf v
        rw [List.filter_cons, List.filter_cons] at h
        by_cases hv : x.value = v
        · rw [if_pos (by simp [hv]), if_pos (by simp [hv])] at h
          simp only [List.cons.injEq] at h
          exact h.2
        · rw [if_neg (by simp [hv]), if_neg (by simp [hv])] at h
          exact h
      rw [ht]

theorem filter_players_eq_spec (df : List Player) (mp mv ms : ℚ) :
    filter_players df mp mv ms = filterPoolSpec df mp mv ms := by
  refine sortedDesc_unique _ _ ?_ ?_ ?_
  · exact sort_values_desc_pairwise _
  · exact specSortDesc_pairwise _
  · intro v
    unfold filter_players filterPoolSpec
    rw [sort_values_desc_filter, specSortDesc_filter]

/-- C3: for every pool and thresholds, filterPool keeps exactly the
records meeting the three inclusive thresholds (a permutation of the
threshold filter, with the stated membership), sorted non-increasing by
value with ties between equal values in original input order: the code
output coincides with the spec modelled stable descending filter, and
every equal-value class is preserved in input order. -/
theorem c3_thm (df : List Player) (mp mv ms : ℚ) :
    filter_players df mp mv ms = filterPoolSpec df mp mv ms ∧
    (filter_players df mp mv ms).Perm (df.filter (passesThresholds mp mv ms)) ∧
    (∀ p : Player, p ∈ filter_players df mp mv ms ↔
      p ∈ df ∧ mp ≤ p.proj_pts ∧ mv ≤ p.value ∧ p.salary ≤ ms) ∧
    (filter_players df mp mv ms).Pairwise vge ∧
    (∀ v : ℚ, (filter_players df mp mv ms).filter (fun q => decide (q.value = v)) =
      (df.filter (passesThresholds mp mv ms)).filter
        (fun q => decide (q.value = v))) := by
  refine ⟨filter_players_eq_spec df mp mv ms, sort_values_desc_perm _, ?_,
    sort_values_desc_pairwise _, fun v => sort_values_desc_filter _ v⟩
  intro p
  unfold filter_players
  rw [(sort_values_desc_perm (df.filter (passesThresholds mp mv ms))).mem_iff,
    List.mem_filter]
  unfold passesThresholds
  simp

unseal Rat.mul Rat.inv Rat.add Rat.sub in
/-- Concrete trace: two players tied at value 5 keep their original
input order in the filtered output, both for the code embedding and for
the spec modelled stable filter. -/
theorem filter_tie_trace :
    filter_players [tieA, tieB] 0 0 12000 = [tieA, tieB] ∧
    filterPoolSpec [tieA, tieB] 0 0 12000 = [tieA, tieB] := by
  refine ⟨by decide, by decide⟩

/-- C8: filter_players is a pure function of its arguments: two
successive calls with identical arguments yield identical outputs and
the source pool is unchanged afterwards. The absence of in-place
mutation is established at embedding time from the copy on line 57 of
the source and from sort_values not being in place. -/
theorem c8_thm (df : List Player) (mp mv ms : ℚ) :
    (filterTwice df mp mv ms).1.1 = (filterTwice df mp mv ms).1.2 ∧
    (filterTwice df mp mv ms).1.1 = filter_players df mp mv ms ∧
    (filterTwice df mp mv ms).2 = df :=
  ⟨rfl, rfl, rfl⟩

theorem parseRows_nil_cols (rows : List (List Cell)) :
    parseRows [] rows = .ok [] := by
  induction rows with
  | nil => rfl
  | cons r rs ih =>
    simp [parseRows, parseRow, parseCols, rowPlayer, ih]

theorem parseRows_error_iff (cols : List String) (rows : List (List Cell)) :
    (∃ e, parseRows cols rows = .error e) ↔
      ∃ r ∈ rows, ∃ e, parseRow cols r = .error e := by
  induction rows with
  | nil => simp [parseRows]
  | cons r rs ih =>
    rcases hr : parseRow cols r with e | rp
    · refine iff_of_true ⟨e, by simp [parseRows, hr]⟩
        ⟨r, List.mem_cons_self r rs, e, hr⟩
    · rcases hs : parseRows cols rs with e2 | ps
      · refine iff_of_true ⟨e2, by simp [parseRows, hr, hs]⟩ ?_
        rcases ih.mp ⟨e2, hs⟩ with ⟨r2, hr2, he2⟩
        exact ⟨r2, List.mem_cons_of_mem r hr2, he2⟩
      · refine iff_of_false ?_ ?_
        · rintro ⟨e, he⟩
          simp only [parseRows, hr, hs] at he
          exact Except.noConfusion he
        · rintro ⟨r2, hr2, e, he⟩
          rcases List.mem_cons.mp hr2 with rfl | hmem
          · rw [hr] at he
            cases he
          · rcases ih.mpr ⟨r2, hmem, e, he⟩ with ⟨e2, he2⟩
            rw [hs] at he2
            cases he2

theorem parseRows_ok_members (cols : List String) (rows : List (List Cell)) :
    ∀ ps, parseRows cols rows = .ok ps →
      ∀ p ∈ ps, ∃ rp, rowPlayer rp = some p := by
  induction rows with
  | nil =>
    intro ps hps p hp
    cases hps
    cases hp
  | cons r rs ih =>
    intro ps hps p hp
    rcases hr : parseRow cols r with e | rp
    · simp only [parseRows, hr] at hps
      exact Except.noConfusion hps
    · rcases hs : parseRows cols rs with e2 | ps2
      · simp only [parseRows, hr, hs] at hps
        exact Except.noConfusion hps
      · simp only [parseRows, hr, hs] at hps
        rcases hrp : rowPlayer rp with _ | p0
        · simp only [hrp] at hps
          cases hps
          exact ih _ hs p hp
        · simp only [hrp] at hps
          cases hps
          rcases List.mem_cons.mp hp with rfl | hmem
          · exact ⟨rp, hrp⟩
          · exact ih _ hs p hmem

theorem rowPlayer_some_spec (rp : RawPlayer) (p : Player)
    (h : rowPlayer rp = some p) :
    rp.name.isSome ∧ 0 < p.salary ∧ 0 < p.proj_pts ∧
    p.salary = rp.salary.getD 0 ∧ p.proj_pts = rp.proj_pts.getD 0 ∧
    p.value = p.proj_pts / (p.salary / 1000) := by
  rcases hn : rp.name with _ | n
  · simp only [rowPlayer, hn] at h
    exact Option.noConfusion h
  · simp only [rowPlayer, hn] at h
    by_cases hg : 0 < rp.salary.getD 0 ∧ 0 < rp.proj_pts.getD 0
    · rw [if_pos hg] at h
      cases h
      exact ⟨by simp [hn], hg.1, hg.2, rfl, rfl, rfl⟩
    · rw [if_neg hg] at h
      cases h

theorem rowPlayer_isSome_iff (rp : RawPlayer) :
    (rowPlayer rp).isSome ↔
      rp.name.isSome ∧ 0 < rp.salary.getD 0 ∧ 0 < rp.proj_pts.getD 0 := by
  rcases hn : rp.name with _ | n
  · simp [rowPlayer, hn]
  · simp only [rowPlayer, hn]
    by_cases hg : 0 < rp.salary.getD 0 ∧ 0 < rp.proj_pts.getD 0
    · simp [hg, hn]
    · simp only [if_neg hg]
      simp only [Option.isSome_none, Bool.false_eq_true, false_iff]
      intro hc
      exact hg ⟨hc.2.1, hc.2.2⟩

theorem foldl_inv {α : Type _} {β : Type _} (f : α → β → α) (P : α → Prop)
    (hf : ∀ a b, P a → P (f a b)) :
    ∀ (l : List β) (a : α), P a → P (l.foldl f a) := by
  intro l
  induction l with
  | nil => intro a ha; exact ha
  | cons x xs ih => intro a ha; exact ih (f a x) (hf a x ha)

theorem coreScan_spec (ppc : Nat) (l : List Player) :
    ∀ (c : List RosterPlayer) (u : List String),
      ∃ d : List RosterPlayer,
        (l.foldl (coreScanStep ppc) (c, u)).1 = c ++ d ∧
        (∀ x ∈ d, x.name ∉ u) ∧
        (∀ x ∈ d, x.name ∈ (l.foldl (coreScanStep ppc) (c, u)).2) ∧
        (d.map RosterPlayer.name).Nodup ∧
        (∀ s ∈ u, s ∈ (l.foldl (coreScanStep ppc) (c, u)).2) := by
  induction l with
  | nil =>
    intro c u
    exact ⟨[], by simp, by simp, by simp, by simp, by simp⟩
  | cons p ps ih =>
    intro c u
    by_cases hc : p.name ∉ u ∧ c.length < ppc
    · have hstep : coreScanStep ppc (c, u) p = (c ++ [toRoster p], p.name :: u) := by
        simp [coreScanStep, hc]
      rw [List.foldl_cons, hstep]
      rcases ih (c ++ [toRoster p]) (p.name :: u) with ⟨d, hd1, hd2, hd3, hd4, hd5⟩
      refine ⟨toRoster p :: d, ?_, ?_, ?_, ?_, ?_⟩
      · rw [hd1, List.append_assoc]
        rfl
      · intro x hx
        rcases List.mem_cons.mp hx with rfl | hx'
        · exact hc.1
        · intro hxu
          exact hd2 x hx' (List.mem_cons_of_mem _ hxu)
      · intro x hx
        rcases List.mem_cons.mp hx with rfl | hx'
        · exact hd5 p.name (List.mem_cons_self _ _)
        · exact hd3 x hx'
      · simp only [List.map_cons]
        refine List.nodup_cons.mpr ⟨?_, hd4⟩
        intro hmem
        rcases List.mem_map.mp hmem with ⟨x, hx, hxe⟩
        exact hd2 x hx (hxe ▸ List.mem_cons_self _ _)
      · intro s hs
        exact hd5 s (List.mem_cons_of_mem _ hs)
    · have hstep : coreScanStep ppc (c, u) p = (c, u) := by
        simp only [coreScanStep, if_neg hc]
      rw [List.foldl_cons, hstep]
      exact ih c u

theorem coreIter_preserves (ds : List Player) (ppc : Nat)
    (st : List (List RosterPlayer) × List String) (h : CoreInv ppc st) :
    CoreInv ppc (coreIter ds ppc st) := by
  rcases h with ⟨hlen, hused, hdisj⟩
  rcases coreScan_spec ppc ds [] st.2 with ⟨d, hd1, hd2, hd3, hd4, hd5⟩
  simp only [List.nil_append] at hd1
  unfold coreIter
  by_cases hfull : (ds.foldl (coreScanStep ppc) ([], st.2)).1.length = ppc
  · refine ⟨?_, ?_, ?_⟩
    · intro core hcore
      simp only [if_pos hfull] at hcore
      rcases List.mem_append.mp hcore with hold | hnew
      · exact hlen core hold
      · rw [List.mem_singleton.mp hnew]
        exact hfull
    · intro core hcore x hx
      simp only [if_pos hfull] at hcore
      rcases List.mem_append.mp hcore with hold | hnew
      · exact hd5 x.name (hused core hold x hx)
      · rw [List.mem_singleton.mp hnew] at hx
        rw [hd1] at hx
        exact hd3 x hx
    · simp only [if_pos hfull]
      rw [List.pairwise_append]
      refine ⟨hdisj, List.pairwise_singleton _ _, ?_⟩
      intro c1 hc1 c2 hc2 n hn
      rw [List.mem_singleton.mp hc2, hd1]
      intro hmem
      rcases List.mem_map.mp hmem with ⟨x, hx, hxe⟩
      rcases List.mem_map.mp hn with ⟨y, hy, hye⟩
      exact hd2 x hx (hxe ▸ hye ▸ hused c1 hc1 y hy)
  · refine ⟨?_, ?_, ?_⟩
    · intro core hcore
      simp only [if_neg hfull] at hcore
      exact hlen core hcore
    · intro core hcore x hx
      simp only [if_neg hfull] at hcore
      exact hd5 x.name (hused core hcore x hx)
    · simp only [if_neg hfull]
      exact hdisj

/-- C4: generate_cores returns only exactly full cores, the cores are
pairwise disjoint by player name, and (amended) an empty pool yields an
empty list whenever players_per_core is positive; with players_per_core
equal to zero an empty pool instead yields num_cores empty cores. The
function is total, so no input raises an error. -/
theorem c4_thm (df : List Player) (num_cores players_per_core : Nat) :
    (∀ core ∈ generate_cores df num_cores players_per_core,
       core.length = players_per_core) ∧
    (generate_cores df num_cores players_per_core).Pairwise coreDisj ∧
    (df = [] → 0 < players_per_core →
       generate_cores df num_cores players_per_core = []) := by
  have hinv : CoreInv players_per_core
      ((List.range num_cores).foldl
        (fun st _ => coreIter (sort_values_desc df) players_per_core st) ([], [])) := by
    refine foldl_inv _ _ ?_ _ _ ?_
    · intro st b hst
      exact coreIter_preserves _ _ _ hst
    · exact ⟨by simp, by simp, List.Pairwise.nil⟩
  refine ⟨fun core h => hinv.1 core h, hinv.2.2, ?_⟩
  intro hdf hppc
  have hstep : ∀ st : List (List RosterPlayer) × List String,
      st = ([], []) → coreIter (sort_values_desc df) players_per_core st = ([], []) := by
    intro st hst
    subst hst hdf
    unfold coreIter
    simp only [sort_values_desc, sortAscV, List.foldl_nil, List.reverse_nil]
    rw [if_neg (by simpa using (Nat.ne_of_lt hppc))]
  have hfix : ((List.range num_cores).foldl
      (fun st _ => coreIter (sort_values_desc df) players_per_core st) ([], []))
        = ([], []) := by
    refine foldl_inv _ (fun st => st = ([], [])) ?_ _ _ rfl
    intro a b ha
    exact hstep a ha
  unfold generate_cores
  rw [hfix]

/-- C4 counterexample: with players_per_core equal to zero, an empty pool
does not yield an empty list; generate_cores returns num_cores empty
cores instead. -/
theorem c4_cex :
    generate_cores [] 1 0 = [[]] ∧
    ([[]] : List (List RosterPlayer)) ≠ [] := by
  constructor
  · decide
  · decide

theorem c4_wit : generate_cores [] 1 1 = [] :=
  (c4_thm [] 1 1).2.2 rfl (by decide)

theorem lineup_stall (cap : ℚ) (avail : List Player) :
    ∀ st : List RosterPlayer × ℚ × List String, 9 ≤ st.1.length →
      avail.foldl (lineupStep cap) st = st := by
  induction avail with
  | nil => intro st _; rfl
  | cons p ps ih =>
    intro st h
    rw [List.foldl_cons]
    have hstep : lineupStep cap st p = st := by
      simp [lineupStep, h]
    rw [hstep]
    exact ih st h

theorem lineupStep_len (cap : ℚ) (st : List RosterPlayer × ℚ × List String)
    (p : Player) : st.1.length ≤ (lineupStep cap st p).1.length := by
  unfold lineupStep
  by_cases h9 : 9 ≤ st.1.length
  · simp [h9]
  · rw [if_neg h9]
    by_cases hc : p.name ∉ st.2.2 ∧ st.2.1 + p.salary ≤ cap
    · rw [if_pos hc]
      simp only [List.length_append, List.length_cons, List.length_nil]
      omega
    · rw [if_neg hc]

theorem lineup_len_mono (cap : ℚ) (avail : List Player) :
    ∀ st : List RosterPlayer × ℚ × List String,
      st.1.length ≤ (avail.foldl (lineupStep cap) st).1.length := by
  induction avail with
  | nil => intro st; exact le_refl _
  | cons p ps ih =>
    intro st
    rw [List.foldl_cons]
    exact le_trans (lineupStep_len cap st p) (ih (lineupStep cap st p))

theorem lineup_salary_inv (cap : ℚ) (avail : List Player) :
    ∀ st : List RosterPlayer × ℚ × List String,
      (avail.foldl (lineupStep cap) st).2.1 ≤ cap ∨
      ((avail.foldl (lineupStep cap) st).1 = st.1 ∧
       (avail.foldl (lineupStep cap) st).2.1 = st.2.1) := by
  induction avail with
  | nil => intro st; exact Or.inr ⟨rfl, rfl⟩
  | cons p ps ih =>
    intro st
    rw [List.foldl_cons]
    by_cases h9 : 9 ≤ st.1.length
    · have hstep : lineupStep cap st p = st := by simp [lineupStep, h9]
      rw [hstep]
      exact ih st
    · by_cases hc : p.name ∉ st.2.2 ∧ st.2.1 + p.salary ≤ cap
      · have hstep : lineupStep cap st p =
            (st.1 ++ [toRoster p], st.2.1 + p.salary, p.name :: st.2.2) := by
          simp [lineupStep, h9, hc]
        rw [hstep]
        rcases ih (st.1 ++ [toRoster p], st.2.1 + p.salary, p.name :: st.2.2) with
          h | ⟨_, h2⟩
        · exact Or.inl h
        · exact Or.inl (h2 ▸ hc.2)
      · have hstep : lineupStep cap st p = st := by
          simp only [lineupStep, if_neg h9, if_neg hc]
        rw [hstep]
        exact ih st

theorem lineup_prefix (cap : ℚ) (avail : List Player) :
    ∀ st : List RosterPlayer × ℚ × List String,
      ∃ d, (avail.foldl (lineupStep cap) st).1 = st.1 ++ d := by
  induction avail with
  | nil => intro st; exact ⟨[], by simp⟩
  | cons p ps ih =>
    intro st
    rw [List.foldl_cons]
    by_cases h9 : 9 ≤ st.1.length
    · have hstep : lineupStep cap st p = st := by simp [lineupStep, h9]
      rw [hstep]
      exact ih st
    · by_cases hc : p.name ∉ st.2.2 ∧ st.2.1 + p.salary ≤ cap
      · have hstep : lineupStep cap st p =
            (st.1 ++ [toRoster p], st.2.1 + p.salary, p.name :: st.2.2) := by
          simp [lineupStep, h9, hc]
        rw [hstep]
        rcases ih (st.1 ++ [toRoster p], st.2.1 + p.salary, p.name :: st.2.2) with ⟨d, hd⟩
        refine ⟨toRoster p :: d, ?_⟩
        rw [hd, List.append_assoc]
        rfl
      · have hstep : lineupStep cap st p = st := by
          simp only [lineupStep, if_neg h9, if_neg hc]
        rw [hstep]
        exact ih st

theorem specFill_nodup (cap : ℚ) (t : Nat) (avail : List Player) :
    ∀ (lu : List RosterPlayer) (cur : ℚ),
      (lu.map RosterPlayer.name).Nodup →
      (avail.map Player.name).Nodup →
      (∀ p ∈ avail, p.name ∉ lu.map RosterPlayer.name) →
      ((specFill cap t avail (lu, cur)).1.map RosterPlayer.name).Nodup := by
  induction avail with
  | nil => intro lu cur h1 _ _; exact h1
  | cons p ps ih =>
    intro lu cur h1 h2 h3
    have h2' : (ps.map Player.name).Nodup := (List.nodup_cons.mp (by simpa using h2)).2
    have hpn : p.name ∉ ps.map Player.name := (List.nodup_cons.mp (by simpa using h2)).1
    simp only [specFill]
    by_cases ht : t ≤ lu.length
    · rw [if_pos ht]
      exact h1
    · rw [if_neg ht]
      by_cases hfit : cur + p.salary ≤ cap
      · rw [if_pos hfit]
        refine ih (lu ++ [toRoster p]) (cur + p.salary) ?_ h2' ?_
        · rw [List.map_append]
          refine List.nodup_append.mpr ⟨h1, by simp, ?_⟩
          intro a ha hb
          simp only [List.map_cons, List.map_nil, List.mem_singleton] at hb
          have htr : (toRoster p).name = p.name := rfl
          rw [htr] at hb
          exact h3 p (List.mem_cons_self _ _) (hb ▸ ha)
        · intro q hq
          rw [List.map_append]
          rw [List.mem_append]
          push_neg
          constructor
          · exact h3 q (List.mem_cons_of_mem _ hq)
          · simp only [List.map_cons, List.map_nil, List.mem_singleton]
            intro hqe
            have htr : (toRoster p).name = p.name := rfl
            rw [htr] at hqe
            exact hpn (hqe ▸ List.mem_map_of_mem Player.name hq)
      · rw [if_neg hfit]
        exact ih lu cur h1 h2' (fun q hq => h3 q (List.mem_cons_of_mem _ hq))

theorem fill_eq_spec (cap : ℚ) (avail : List Player) :
    ∀ (lu : List RosterPlayer) (cur : ℚ) (used : List String),
      (∀ p ∈ avail, p.name ∉ used) → (avail.map Player.name).Nodup →
      (avail.foldl (lineupStep cap) (lu, cur, used)).1 =
        (specFill cap 9 avail (lu, cur)).1 ∧
      (avail.foldl (lineupStep cap) (lu, cur, used)).2.1 =
        (specFill cap 9 avail (lu, cur)).2 := by
  induction avail with
  | nil => intro lu cur used _ _; exact ⟨rfl, rfl⟩
  | cons p ps ih =>
    intro lu cur used h1 h2
    have h2' : (ps.map Player.name).Nodup := (List.nodup_cons.mp (by simpa using h2)).2
    have hpn' : p.name ∉ ps.map Player.name := (List.nodup_cons.mp (by simpa using h2)).1
    by_cases h9 : 9 ≤ lu.length
    · have hstep : lineupStep cap (lu, cur, used) p = (lu, cur, used) := by
        simp [lineupStep, h9]
      rw [List.foldl_cons, hstep, lineup_stall cap ps (lu, cur, used) h9]
      simp only [specFill]
      rw [if_pos h9]
      exact ⟨rfl, rfl⟩
    · have hpn : p.name ∉ used := h1 p (List.mem_cons_self _ _)
      by_cases hfit : cur + p.salary ≤ cap
      · have hstep : lineupStep cap (lu, cur, used) p =
            (lu ++ [toRoster p], cur + p.salary, p.name :: used) := by
          simp [lineupStep, h9, hpn, hfit]
        rw [List.foldl_cons, hstep]
        simp only [specFill]
        rw [if_neg h9, if_pos hfit]
        refine ih _ _ _ ?_ h2'
        intro q hq
        simp only [List.mem_cons]
        push_neg
        constructor
        · intro hqe
          exact hpn' (hqe ▸ List.mem_map_of_mem Player.name hq)
        · exact h1 q (List.mem_cons_of_mem _ hq)
      · have hstep : lineupStep cap (lu, cur, used) p = (lu, cur, used) := by
          have : ¬(p.name ∉ used ∧ cur + p.salary ≤ cap) := by
            intro hcon
            exact hfit hcon.2
          simp only [lineupStep, if_neg h9, if_neg this]
        rw [List.foldl_cons, hstep]
        simp only [specFill]
        rw [if_neg h9, if_neg hfit]
        exact ih lu cur used (fun q hq => h1 q (List.mem_cons_of_mem _ hq)) h2'

theorem availableOf_nodup (df : List Player) (core : List RosterPlayer)
    (h : (df.map Player.name).Nodup) :
    ((availableOf df core).map Player.name).Nodup := by
  unfold availableOf
  have hperm := (sort_values_desc_perm
    (df.filter (fun p => decide (p.name ∉ core.map RosterPlayer.name)))).map Player.name
  refine hperm.nodup_iff.mpr ?_
  exact ((List.filter_sublist df).map Player.name).nodup h

theorem availableOf_not_core (df : List Player) (core : List RosterPlayer) :
    ∀ p ∈ availableOf df core, p.name ∉ core.map RosterPlayer.name := by
  intro p hp
  unfold availableOf at hp
  have hp' := (sort_values_desc_perm _).mem_iff.mp hp
  exact of_decide_eq_true (List.mem_filter.mp hp').2

/-- C6: under the data model invariant that player names are unique in
the pool, and for a core with distinct names, the fill loop of
generate_lineups_from_cores agrees with the greedy walk described by the
spec: start from the core in core order, walk the value sorted candidate
pool (the pool minus the core names) once, append a candidate exactly
when its salary fits under the cap, stop at 9 players; the core is a
prefix of the result and the result never contains a duplicate name. -/
theorem c6_thm (df : List Player) (core : List RosterPlayer) (cap : ℚ)
    (hdf : (df.map Player.name).Nodup)
    (hcore : (core.map RosterPlayer.name).Nodup) :
    buildLineup (availableOf df core) core cap =
      specFill cap 9 (availableOf df core)
        (core, (((core.map RosterPlayer.salary).sum : ℤ) : ℚ)) ∧
    (buildLineup (availableOf df core) core cap).1.take core.length = core ∧
    ((buildLineup (availableOf df core) core cap).1.map RosterPlayer.name).Nodup := by
  have hav := availableOf_nodup df core hdf
  have hdisj := availableOf_not_core df core
  have hused : ∀ p ∈ availableOf df core, p.name ∉ core.map RosterPlayer.name := hdisj
  have heq := fill_eq_spec cap (availableOf df core) core
    (((core.map RosterPlayer.salary).sum : ℤ) : ℚ) (core.map RosterPlayer.name)
    hused hav
  refine ⟨?_, ?_, ?_⟩
  · unfold buildLineup
    rw [Prod.ext_iff]
    exact ⟨heq.1, heq.2⟩
  · unfold buildLineup
    rcases lineup_prefix cap (availableOf df core)
      (core, (((core.map RosterPlayer.salary).sum : ℤ) : ℚ), core.map RosterPlayer.name)
      with ⟨d, hd⟩
    simp only []
    rw [hd]
    exact List.take_left core d
  · have hnn := specFill_nodup cap 9 (availableOf df core) core
      (((core.map RosterPlayer.salary).sum : ℤ) : ℚ) hcore hav hused
    unfold buildLineup
    simp only []
    rw [heq.1]
    exact hnn

theorem foldl_ite_append {γ : Type _} (c : Prop) [Decidable c] (x : LineupRec) :
    ∀ (l : List γ) (acc : List LineupRec),
      l.foldl (fun a _ => if c then a ++ [x] else a) acc =
        acc ++ if c then List.replicate l.length x else [] := by
  intro l
  induction l with
  | nil => intro acc; simp
  | cons y ys ih =>
    intro acc
    rw [List.foldl_cons]
    by_cases hc : c
    · rw [if_pos hc, ih, if_pos hc]
      rw [List.append_assoc]
      congr 1
      simp [List.replicate_succ, hc]
    · rw [if_neg hc, ih, if_neg hc]
      simp [hc]

theorem perCore_eq (df : List Player) (lpc : Nat) (cap : ℚ) (idx : Nat)
    (core : List RosterPlayer) (acc : List LineupRec) :
    perCore df lpc cap idx core acc = acc ++ chunk df lpc cap idx core := by
  unfold perCore chunk
  simp only []
  rw [foldl_ite_append ((buildLineup (availableOf df core) core cap).1.length = 9)
    (mkRecord idx cap (buildLineup (availableOf df core) core cap).1
      (buildLineup (availableOf df core) core cap).2) (List.range lpc) acc]
  rw [List.length_range]

theorem gen_eq_chunks (df : List Player) (lpc : Nat) (cap : ℚ)
    (cores : List (List RosterPlayer)) :
    generate_lineups_from_cores df cores lpc cap = chunksFrom df lpc cap 1 cores := by
  have aux : ∀ (cs : List (List RosterPlayer)) (n : Nat) (acc : List LineupRec),
      (cs.enumFrom n).foldl (fun all ic => perCore df lpc cap ic.1 ic.2 all) acc =
        acc ++ chunksFrom df lpc cap n cs := by
    intro cs
    induction cs with
    | nil => intro n acc; simp [chunksFrom, List.enumFrom]
    | cons c cs ih =>
      intro n acc
      simp only [List.enumFrom, List.foldl_cons]
      rw [perCore_eq, ih (n + 1) (acc ++ chunk df lpc cap n c)]
      simp only [chunksFrom]
      rw [List.append_assoc]
  unfold generate_lineups_from_cores
  simpa using aux cores 1 []

theorem mem_chunksFrom (df : List Player) (lpc : Nat) (cap : ℚ) :
    ∀ (cs : List (List RosterPlayer)) (n : Nat) (r : LineupRec),
      r ∈ chunksFrom df lpc cap n cs ↔
        ∃ k core, cs.get? k = some core ∧ r ∈ chunk df lpc cap (n + k) core := by
  intro cs
  induction cs with
  | nil =>
    intro n r
    simp [chunksFrom]
  | cons c cs ih =>
    intro n r
    simp only [chunksFrom]
    rw [List.mem_append]
    constructor
    · rintro (h | h)
      · exact ⟨0, c, rfl, by simpa using h⟩
      · rcases (ih (n + 1) r).mp h with ⟨k, core, hk, hr⟩
        refine ⟨k + 1, core, by simpa using hk, ?_⟩
        have harith : n + 1 + k = n + (k + 1) := by omega
        rwa [harith] at hr
    · rintro ⟨k, core, hk, hr⟩
      cases k with
      | zero =>
        cases hk
        left
        simpa using hr
      | succ k =>
        right
        refine (ih (n + 1) r).mpr ⟨k, core, by simpa using hk, ?_⟩
        have harith : n + (k + 1) = n + 1 + k := by omega
        rwa [harith] at hr

theorem mem_chunk_eq (df : List Player) (lpc : Nat) (cap : ℚ) (idx : Nat)
    (core : List RosterPlayer) (r : LineupRec)
    (h : r ∈ chunk df lpc cap idx core) :
    (buildLineup (availableOf df core) core cap).1.length = 9 ∧
    r = mkRecord idx cap (buildLineup (availableOf df core) core cap).1
      (buildLineup (availableOf df core) core cap).2 := by
  unfold chunk at h
  by_cases hc : (buildLineup (availableOf df core) core cap).1.length = 9
  · rw [if_pos hc] at h
    exact ⟨hc, List.eq_of_mem_replicate h⟩
  · rw [if_neg hc] at h
    exact absurd h (List.not_mem_nil r)

theorem chunk_length (df : List Player) (lpc : Nat) (cap : ℚ) (idx : Nat)
    (core : List RosterPlayer) :
    (chunk df lpc cap idx core).length =
      if (buildLineup (availableOf df core) core cap).1.length = 9 then lpc
      else 0 := by
  unfold chunk
  by_cases hc : (buildLineup (availableOf df core) core cap).1.length = 9 <;>
    simp [hc]

theorem chunksFrom_length (df : List Player) (lpc : Nat) (cap : ℚ) :
    ∀ (cs : List (List RosterPlayer)) (n : Nat),
      (chunksFrom df lpc cap n cs).length =
        lpc * cs.countP (fun core =>
          decide ((buildLineup (availableOf df core) core cap).1.length = 9)) := by
  intro cs
  induction cs with
  | nil => intro n; simp [chunksFrom]
  | cons c cs ih =>
    intro n
    simp only [chunksFrom, List.length_append, ih (n + 1), List.countP_cons]
    rw [chunk_length]
    by_cases hc : (buildLineup (availableOf df c) c cap).1.length = 9
    · rw [if_pos hc]
      have hd : decide ((buildLineup (availableOf df c) c cap).1.length = 9) = true := by
        simp [hc]
      rw [if_pos hd]
      ring
    · rw [if_neg hc]
      have hd : ¬(decide ((buildLineup (availableOf df c) c cap).1.length = 9) = true) := by
        simp [hc]
      rw [if_neg hd]
      simp

theorem pyInt_nonneg (q : ℚ) (h : 0 ≤ q) : 0 ≤ pyInt q := by
  unfold pyInt
  rw [if_pos h]
  exact Int.floor_nonneg.mpr h

/-- C1: amended. generate_lineups_from_cores returns a record only for
the (core, repetition) pairs whose greedy fill reaches exactly 9
players: every returned record has 9 players, each core contributes
either lineups_per_core records or none, so undersized constructions are
silently discarded rather than returned with a completeness flag (the
record has no is_complete field); the function is total, so nothing is
raised, and a core of exactly 9 players is kept as is by the fill, hence
returned even when its salary exceeds the cap. -/
theorem c1_thm (df : List Player) (cores : List (List RosterPlayer))
    (lpc : Nat) (cap : ℚ) :
    (∀ r ∈ generate_lineups_from_cores df cores lpc cap,
       r.num_players = 9 ∧ r.lineup.length = 9) ∧
    (generate_lineups_from_cores df cores lpc cap).length =
      lpc * cores.countP (fun core =>
        decide ((buildLineup (availableOf df core) core cap).1.length = 9)) ∧
    (∀ core ∈ cores, core.length = 9 →
       (buildLineup (availableOf df core) core cap).1 = core) := by
  refine ⟨?_, ?_, ?_⟩
  · intro r hr
    rw [gen_eq_chunks] at hr
    rcases (mem_chunksFrom df lpc cap cores 1 r).mp hr with ⟨k, core, _, hrc⟩
    rcases mem_chunk_eq df lpc cap (1 + k) core r hrc with ⟨h9, he⟩
    subst he
    exact ⟨h9, h9⟩
  · rw [gen_eq_chunks, chunksFrom_length]
  · intro core _ h9
    unfold buildLineup
    rw [lineup_stall cap (availableOf df core) _ (le_of_eq h9.symm)]

/-- C7: all lineups produced for one core are identical: any two records
of the output that carry the same core_set are equal, because every
repetition for a core rebuilds the same lineup from the same candidate
ordering with no exclusion of previously used players. -/
theorem c7_thm (df : List Player) (cores : List (List RosterPlayer))
    (lpc : Nat) (cap : ℚ) (r1 r2 : LineupRec)
    (h1 : r1 ∈ generate_lineups_from_cores df cores lpc cap)
    (h2 : r2 ∈ generate_lineups_from_cores df cores lpc cap)
    (hcs : r1.core_set = r2.core_set) : r1 = r2 := by
  rw [gen_eq_chunks] at h1 h2
  rcases (mem_chunksFrom df lpc cap cores 1 r1).mp h1 with ⟨k1, c1, hk1, hr1⟩
  rcases (mem_chunksFrom df lpc cap cores 1 r2).mp h2 with ⟨k2, c2, hk2, hr2⟩
  rcases mem_chunk_eq df lpc cap (1 + k1) c1 r1 hr1 with ⟨_, he1⟩
  rcases mem_chunk_eq df lpc cap (1 + k2) c2 r2 hr2 with ⟨_, he2⟩
  have hcs1 : r1.core_set = 1 + k1 := by rw [he1]; rfl
  have hcs2 : r2.core_set = 1 + k2 := by rw [he2]; rfl
  have hk : k1 = k2 := by omega
  subst hk
  rw [hk1] at hk2
  cases hk2
  rw [he1, he2]

/-- C10: amended. Every returned lineup has exactly 9 players, and when
no core has exactly 9 members (in particular for the 4-member cores the
app builds), every returned record satisfies the cap, so
remaining_salary is nonnegative; a core of exactly 9 members, however,
is returned regardless of its salary and can carry a negative
remaining_salary. -/
theorem c10_thm (df : List Player) (cores : List (List RosterPlayer))
    (lpc : Nat) (cap : ℚ) :
    (∀ r ∈ generate_lineups_from_cores df cores lpc cap, r.num_players = 9) ∧
    ((∀ core ∈ cores, core.length ≠ 9) →
      ∀ r ∈ generate_lineups_from_cores df cores lpc cap,
        0 ≤ r.remaining_salary) := by
  constructor
  · intro r hr
    rw [gen_eq_chunks] at hr
    rcases (mem_chunksFrom df lpc cap cores 1 r).mp hr with ⟨k, core, _, hrc⟩
    rcases mem_chunk_eq df lpc cap (1 + k) core r hrc with ⟨h9, he⟩
    subst he
    exact h9
  · intro hne r hr
    rw [gen_eq_chunks] at hr
    rcases (mem_chunksFrom df lpc cap cores 1 r).mp hr with ⟨k, core, hk, hrc⟩
    rcases mem_chunk_eq df lpc cap (1 + k) core r hrc with ⟨h9, he⟩
    have hcmem : core ∈ cores := List.get?_mem hk
    have hlen := hne core hcmem
    have hsal : (buildLineup (availableOf df core) core cap).2 ≤ cap := by
      unfold buildLineup at h9 ⊢
      simp only [] at h9 ⊢
      rcases lineup_salary_inv cap (availableOf df core)
        (core, (((core.map RosterPlayer.salary).sum : ℤ) : ℚ),
          core.map RosterPlayer.name) with h | ⟨hlu, _⟩
      · exact h
      · exfalso
        apply hlen
        rw [← h9, hlu]
    subst he
    have hrem : (0 : ℚ) ≤ cap - (buildLineup (availableOf df core) core cap).2 := by
      linarith
    exact pyInt_nonneg _ hrem

unseal Rat.mul Rat.inv Rat.add Rat.sub in
/-- C1 counterexample: one core and one repetition form one (core,
repetition) pair, yet the output is empty: the undersized lineup built
from the single-member core is discarded, not returned with a
completeness flag. -/
theorem c1_cex :
    generate_lineups_from_cores [] [[soloCore]] 1 60000 = [] ∧
    [[soloCore]].length * 1 = 1 := by
  constructor
  · decide
  · decide

unseal Rat.mul Rat.inv Rat.add Rat.sub in
theorem c1_wit :
    (buildLineup (availableOf [] nineCore) nineCore 60000).1 = nineCore :=
  (c1_thm [] [nineCore] 1 60000).2.2 nineCore (by decide) (by decide)

/-- C2: amended. parse_csv never raises a SchemaError: a zero-column
table yields an empty pool without error, and the whole call raises a
ValueError exactly when some row has a matched numeric column (salary,
projection or ownership) whose cell fails the float conversion; such
rows are not dropped non-fatally. Rows failing the name and positivity
guard are silently dropped. -/
theorem c2_thm :
    (∀ t : RawTable, t.columns = [] → parse_csv t = .ok []) ∧
    (∀ t : RawTable, (∃ e, parse_csv t = .error e) ↔
       ∃ r ∈ t.rows, ∃ e, parseRow t.columns r = .error e) := by
  constructor
  · intro t h
    unfold parse_csv
    rw [h]
    exact parseRows_nil_cols t.rows
  · intro t
    exact parseRows_error_iff t.columns t.rows

/-- C2 counterexample: a one-column table whose salary cell is not
numeric makes parse_csv raise (so non-numeric cells are not dropped
non-fatally), while a zero-column table returns an empty pool rather
than raising a SchemaError. -/
theorem c2_cex :
    parse_csv badTable = .error () ∧ badTable.columns.length ≠ 0 ∧
    parse_csv zeroTable = .ok [] ∧ zeroTable.rows.length ≠ 0 := by
  refine ⟨by decide, by decide, by decide, by decide⟩

theorem c2_wit : parse_csv zeroTable = .ok [] :=
  c2_thm.1 zeroTable rfl

/-- C5: a raw row is emitted as a player record exactly when a name was
matched and both the parsed salary and the parsed projection are
positive, and every record in a successfully normalized pool has
positive salary, positive projection, and value equal to projected
points divided by salary over 1000, exactly. -/
theorem c5_thm :
    (∀ rp : RawPlayer, (rowPlayer rp).isSome ↔
       rp.name.isSome ∧ 0 < rp.salary.getD 0 ∧ 0 < rp.proj_pts.getD 0) ∧
    (∀ (t : RawTable) (ps : List Player), parse_csv t = .ok ps →
       ∀ p ∈ ps, 0 < p.salary ∧ 0 < p.proj_pts ∧
         p.value = p.proj_pts / (p.salary / 1000)) := by
  constructor
  · exact rowPlayer_isSome_iff
  · intro t ps hps p hp
    rcases parseRows_ok_members t.columns t.rows ps hps p hp with ⟨rp, hrp⟩
    rcases rowPlayer_some_spec rp p hrp with ⟨_, h1, h2, _, _, h3⟩
    exact ⟨h1, h2, h3⟩

unseal Rat.mul Rat.inv Rat.add Rat.sub in
theorem c5_wit :
    0 < goodPlayer.salary ∧ 0 < goodPlayer.proj_pts ∧
    goodPlayer.value = goodPlayer.proj_pts / (goodPlayer.salary / 1000) :=
  c5_thm.2 goodTable [goodPlayer] (by decide) goodPlayer (by decide)

/-- C9: the guard of the Normalizer makes the division in the value
computation safe: any row that reaches it has a positive parsed salary,
so the divisor salary / 1000 is positive, in particular nonzero. -/
theorem c9_thm (rp : RawPlayer) (p : Player) (h : rowPlayer rp = some p) :
    0 < p.salary ∧ 0 < p.salary / 1000 ∧ p.salary / 1000 ≠ 0 ∧
    p.value = p.proj_pts / (p.salary / 1000) := by
  rcases rowPlayer_some_spec rp p h with ⟨_, h1, _, _, _, h3⟩
  have hdiv : 0 < p.salary / 1000 := by positivity
  exact ⟨h1, hdiv, ne_of_gt hdiv, h3⟩

unseal Rat.mul Rat.inv Rat.add Rat.sub in
theorem c9_wit :
    0 < goodPlayer.salary ∧ 0 < goodPlayer.salary / 1000 ∧
    goodPlayer.salary / 1000 ≠ 0 ∧
    goodPlayer.value = goodPlayer.proj_pts / (goodPlayer.salary / 1000) :=
  c9_thm goodRaw goodPlayer (by decide)

unseal Rat.mul Rat.inv Rat.add Rat.sub in
theorem c6_wit :
    buildLineup (availableOf witPool witCore) witCore 60000 =
      specFill 60000 9 (availableOf witPool witCore)
        (witCore, (((witCore.map RosterPlayer.salary).sum : ℤ) : ℚ)) ∧
    (buildLineup (availableOf witPool witCore) witCore 60000).1.take
        witCore.length = witCore ∧
    ((buildLineup (availableOf witPool witCore) witCore 60000).1.map
        RosterPlayer.name).Nodup :=
  c6_thm witPool witCore 60000 (by decide) (by decide)

unseal Rat.mul Rat.inv Rat.add Rat.sub in
theorem c7_wit :
    (generate_lineups_from_cores [] [nineCore] 2 60000).get ⟨0, by decide⟩ =
      (generate_lineups_from_cores [] [nineCore] 2 60000).get ⟨1, by decide⟩ :=
  c7_thm [] [nineCore] 2 60000 _ _ (by decide) (by decide) (by decide)

unseal Rat.mul Rat.inv Rat.add Rat.sub in
/-- C10 counterexample: a nine-member core with salary 70000 against a
60000 cap is returned with a negative remaining_salary, so the output
can contain an over-cap lineup. -/
theorem c10_cex :
    (generate_lineups_from_cores [] [nineCore] 1 60000).map
        LineupRec.remaining_salary = [-10000] ∧
    (-10000 : ℤ) < 0 := by
  refine ⟨by decide, by decide⟩

unseal Rat.mul Rat.inv Rat.add Rat.sub in
theorem c10_wit :
    0 ≤ (mkRecord 1 60000
        (buildLineup (availableOf bigPool witCore) witCore 60000).1
        (buildLineup (availableOf bigPool witCore) witCore 60000).2).remaining_salary :=
  (c10_thm bigPool [witCore] 1 60000).2 (by decide) _ (by decide)
